import Mathlib

/-!
Shallow embedding of the `core::tensor` class of `src/include/core/core.hpp`
(the authoritative variant cited by every claim) and proofs about it.

Modelling conventions:
* `tensor<T, Order>` is embedded as the structure `Tensor α`; the compile-time
  rank `Order` is recovered as `m_extents.length`, and the four data members
  keep their source names (`m_data`, `m_extents`, `m_size`, `m_strides`).
* `size_type` is `std::size_t` (64-bit unsigned); its wrap-around arithmetic
  is made explicit with `% 2^64` where the source can wrap (`m_size - 1` in
  `operator[]`, the accumulating flat offset in `get`, the size product).
* thrown exceptions become `Except Err`; the constructors of `Err` map 1:1 to
  the four `throw` sites of the source (`std::out_of_range("Index out of
  bounds.")`, `std::domain_error("Division by zero.")`,
  `std::runtime_error("Tensor size mismatch.")` and
  `std::runtime_error("Tensor dimension mismatch.")`).
* the stride computation of the constructors goes through IEEE-754 binary32
  (`float`) arithmetic in the source; it is embedded exactly, with a `float`
  value represented by the rational it denotes and each operation rounding to
  nearest, ties to even, at 24 significand bits (see `f32round`).
* reads of the raw buffer (`m_data[idx]`, no bounds check in the source) are
  embedded as `List.getD _ _ default`: an out-of-range read is undefined
  behaviour in C++ and surfaces here as the default element.
* element type `T`: claims about data movement are stated for a general
  element type; arithmetic and comparison operators are instantiated at
  `Int`, a faithful model of an integral `T` except that `Int` never wraps
  (no claim depends on element overflow).
-/

namespace CoreTensor

/-- `2^64`, the modulus of `size_type` (`std::size_t`) arithmetic. -/
def U64 : Nat := 2 ^ 64

/-- The four kinds of exception thrown by `core.hpp`, one constructor per
`throw` site: `out_of_range` (flat indexing), `domain_error` (division by
zero), `runtime_error("Tensor size mismatch.")` and
`runtime_error("Tensor dimension mismatch.")`.  `undefined` is not an
exception of the source: it marks undefined behaviour (the cast of a
non-finite `float` in the stride loop), which a faithful embedding cannot
return a value for. -/
inductive Err where
  | outOfRange : Err
  | domainError : Err
  | sizeMismatch : Err
  | dimMismatch : Err
  | undefined : Err
deriving DecidableEq, Repr

/-- Embedding of `core::tensor<T, Order>` (core.hpp:54-61): the owned buffer
`m_data`, the per-axis extents `m_extents`, the element count `m_size` and the
row-major strides `m_strides`.  `Order = m_extents.length`; the buffer is a
list, owned by value (the embedding is pure, so C++'s copy-on-entry
`auto result = *this` is the identity). -/
structure Tensor (α : Type) where
  m_data : List α
  m_extents : List Nat
  m_size : Nat
  m_strides : List Nat
deriving DecidableEq, Repr

namespace Tensor

variable {α : Type} [Inhabited α]

/-- `m_size - 1` as computed in `size_type` arithmetic (core.hpp:208): for
`m_size = 0` the subtraction wraps around to `2^64 - 1`. -/
def sizeMinusOne (t : Tensor α) : Nat := (t.m_size + (U64 - 1)) % U64

/-- Embedding of the flat index operator `operator[]` (core.hpp:207-212):
`if (idx > m_size - 1) throw std::out_of_range(...); return m_data[idx];`.
The comparison happens in `size_type`, so `m_size - 1` wraps when
`m_size == 0`.  The unchecked buffer access `m_data[idx]` is modelled by
`List.getD` (out-of-range reads are undefined behaviour in the source). -/
def idx (t : Tensor α) (i : Nat) : Except Err α :=
  if i > t.sizeMinusOne then .error .outOfRange
  else .ok (t.m_data.getD i default)

/-- Writing through the reference returned by `operator[]`
(`t[i] = v`): the same bounds check as `Tensor.idx`, then an in-place store.
`List.set` is a no-op out of range, matching the fact that such a store is
undefined behaviour the embedding never relies on. -/
def setIdx (t : Tensor α) (i : Nat) (v : α) : Except Err (Tensor α) :=
  if i > t.sizeMinusOne then .error .outOfRange
  else .ok { t with m_data := t.m_data.set i v }

end Tensor

/-! ### The `float` stride computation

Both value constructors of `core.hpp` derive `m_strides` with
```
auto prod = static_cast<float>(m_size);
for (size_type idx = 0; idx < Order; ++idx) {
  prod /= m_extents[idx];
  m_strides[idx] = static_cast<size_type>(prod);
}
```
i.e. IEEE-754 binary32 arithmetic.  A finite nonnegative `float` value
`m * 2^e` is represented exactly by a dyadic pair `F32` (the representation
is not unique — `⟨m, e⟩` and `⟨2 * m, e - 1⟩` denote the same value — and
every operation below depends only on the denoted value); every conversion
and division rounds its exact rational result to nearest, ties to even, at
24 significand bits.  The exponent range is not clamped: no value anywhere
near the sub- or supernormal range arises in this development.  Negative
values never arise (all inputs are unsigned). -/

/-- `2^24`: integers up to this bound are exactly representable in binary32,
and quotients of exact divisions staying below it round to themselves. -/
def F24 : Nat := 2 ^ 24

/-- Round the nonnegative fraction `a / b` (with `b > 0`) to the nearest
integer, ties to even. -/
def roundNearEven (a b : Nat) : Nat :=
  let n := a / b
  let r := a % b
  if 2 * r < b then n
  else if b < 2 * r then n + 1
  else if n % 2 = 0 then n else n + 1

/-- `⌊log2 n⌋` for `n > 0` (and `0` at `0`), by fueled structural recursion
so that it evaluates by kernel reduction (`Nat.log2` itself is defined by
well-founded recursion and does not). -/
def natLog2 (n : Nat) : Nat :=
  go n n
where
  go : Nat → Nat → Nat
    | 0, _ => 0
    | fuel + 1, n => if 2 ≤ n then go fuel (n / 2) + 1 else 0

/-- `⌊log2 (a / b)⌋` for positive naturals `a`, `b`: the unique `l` with
`2^l ≤ a / b < 2^(l+1)`, computed from `⌊log2⌋` of the two sides and one
comparison. -/
def ratLog2 (a b : Nat) : Int :=
  let l : Int := (natLog2 a : Int) - (natLog2 b : Int)
  let ge : Bool :=  -- whether a / b ≥ 2^l
    if 0 ≤ l then decide (b * 2 ^ l.toNat ≤ a) else decide (b ≤ a * 2 ^ (-l).toNat)
  if ge then l else l - 1

/-- A finite nonnegative binary32 value, represented exactly as the dyadic
rational `m * 2^e`. -/
structure F32 where
  m : Nat
  e : Int
deriving DecidableEq, Repr

/-- Round the nonnegative rational `a / b` (`b > 0`) to the nearest binary32
value, ties to even.  When the quotient is exact and at most `2^24` it is
exactly representable and returned unchanged (the branch exercised by
in-range stride computations); otherwise the value is scaled so that its
significand lies in `[2^23, 2^24)`, rounded to the nearest integer
significand (ties to even), and scaled back. -/
def roundF (a b : Nat) : F32 :=
  if a = 0 then ⟨0, 0⟩
  else if a % b = 0 ∧ a / b ≤ F24 then ⟨a / b, 0⟩
  else
    let s : Int := 23 - ratLog2 a b
    if 0 ≤ s then ⟨roundNearEven (a * 2 ^ s.toNat) b, -s⟩
    else ⟨roundNearEven a (b * 2 ^ (-s).toNat), -s⟩

/-- `static_cast<float>(n)` for a `size_type` value `n`: round to nearest
binary32, ties to even. -/
def f32ofNat (n : Nat) : F32 := roundF n 1

/-- binary32 division `x / y`: `none` models the non-finite results (`inf`
for `x > 0, y = 0`, `NaN` for `0 / 0`) whose later cast to `size_type` is
undefined behaviour; otherwise the exact quotient `(x.m / y.m) * 2^(x.e -
y.e)` is rounded once (rounding commutes with the exact power-of-two
scaling, the exponent range being unclamped). -/
def f32div (x y : F32) : Option F32 :=
  if y.m = 0 then none
  else
    let r := roundF x.m y.m
    some ⟨r.m, r.e + x.e - y.e⟩

/-- `static_cast<size_type>(prod)` on a nonnegative finite `float`:
truncation toward zero (values of this development never exceed the
`size_type` range). -/
def f32toSizeType (x : F32) : Nat :=
  if 0 ≤ x.e then x.m * 2 ^ x.e.toNat else x.m / 2 ^ (-x.e).toNat

/-- The stride loop shared by the constructors (core.hpp:110-114 and
126-130): starting from `prod = (float) m_size`, divide by each extent in
turn (the `size_type` extent is first converted to `float`) and record the
truncated quotient.  `none` marks the undefined cast of a non-finite
quotient (which happens exactly when some extent is `0`). -/
def stridesLoop : F32 → List Nat → Option (List Nat)
  | _, [] => some []
  | prod, e :: rest =>
    match f32div prod (f32ofNat e) with
    | none => none
    | some p =>
      match stridesLoop p rest with
      | none => none
      | some l => some (f32toSizeType p :: l)

/-- `std::reduce(extents.begin(), extents.end(), 1, multiplies<size_type>())`
(core.hpp:123): the product of the extents in `size_type` arithmetic, i.e.
modulo `2^64`. -/
def sizeProduct (extents : List Nat) : Nat :=
  extents.foldl (fun a e => a * e % U64) 1

/-- Embedding of the extents constructor `tensor(const array<Order>)`
(core.hpp:121-131): store the extents, compute `m_size` as the `size_type`
product, allocate `m_size` elements (uninitialized in the source, modelled
as `default`), and run the `float` stride loop; `.error .undefined` is the
undefined cast of a non-finite `float` (some extent is zero). -/
def extentsCtor (α : Type) [Inhabited α] (extents : List Nat) :
    Except Err (Tensor α) :=
  let size := sizeProduct extents
  match stridesLoop (f32ofNat size) extents with
  | none => .error .undefined
  | some strides => .ok ⟨List.replicate size default, extents, size, strides⟩

/-- Embedding of the empty constructor `tensor()` (core.hpp:68): null
buffer, value-initialized (all-zero) extents and strides, size `0`. -/
def defaultCtor (α : Type) (order : Nat) : Tensor α :=
  ⟨[], List.replicate order 0, 0, List.replicate order 0⟩

/-- Embedding of the order-one initializer-list constructor
`tensor(std::initializer_list<T>)` (core.hpp:74-81) at `tensor<T, Order>`:
`m_size = values.size()`, and the braced assignments `m_extents = {m_size}`,
`m_strides = {1}` zero-fill the remaining `Order - 1` array slots. -/
def listCtor (α : Type) (order : Nat) (values : List α) : Tensor α :=
  ⟨values, values.length :: List.replicate (order - 1) 0,
   values.length, 1 :: List.replicate (order - 1) 0⟩

/-! ### Multi-index access `get<U>` -/

/-- The flat-offset accumulation of `get` (core.hpp:238-241):
`flat_idx += idxs[idx] * m_strides[idx]` for `idx < U`, in `size_type`
arithmetic (each product and sum wraps modulo `2^64`; no claim of this
development reaches the wrap). -/
def flatOffset (strides idxs : List Nat) : Nat :=
  (idxs.zipWith (fun i s => i * s % U64) strides).foldl
    (fun acc p => (acc + p) % U64) 0

/-- Embedding of `get<U>` in its `U == Order` branch (core.hpp:243-245):
compute the flat offset and read the buffer there, with no bounds check of
any kind (an out-of-range read is undefined behaviour in the source,
surfacing as `default` here). -/
def Tensor.get {α : Type} [Inhabited α] (t : Tensor α) (idxs : List Nat) : α :=
  t.m_data.getD (flatOffset t.m_strides idxs) default

/-- Two's-complement wrap of a 32-bit signed `int` (the conversion of an
out-of-range value is implementation-defined in C++; the ubiquitous wrapping
behaviour is modelled, and no in-range claim reaches it). -/
def wrap32 (x : Int) : Int := (x + 2 ^ 31) % 2 ^ 32 - 2 ^ 31

/-- `std::reduce(m_extents.begin() + U, m_extents.end(), 1,
multiplies<int>())` (core.hpp:251-252): the block size of a sub-tensor,
computed in `int` (32-bit signed): each `size_type` extent converts to
`int` and each partial product stays an `int`. -/
def blockSizeInt (trailing : List Nat) : Int :=
  trailing.foldl (fun (a : Int) (e : Nat) => wrap32 (a * wrap32 (e : Int))) 1

/-- The copy loop of the `U < Order` branch of `get` (core.hpp:255-257):
`result[idx - flat_idx] = m_data[idx]` for `idx` in
`[flat_idx, flat_idx + offset)`; each store goes through the bounds-checked
`operator[]` of the freshly built result. -/
def copyLoop {α : Type} [Inhabited α] (src : List α) (flat : Nat) :
    Nat → Nat → Tensor α → Except Err (Tensor α)
  | _, 0, result => .ok result
  | i, fuel + 1, result => do
    let r ← result.setIdx (i - flat) (src.getD i default)
    copyLoop src flat (i + 1) fuel r

/-- Embedding of `get<U>` in its `U < Order` branch (core.hpp:247-260): copy
the trailing `Order - U` extents, compute the contiguous block size in `int`
arithmetic, build a fresh tensor from those extents and fill it from the
slice `[flat_idx, flat_idx + offset)` of the source buffer.  The supplied
indices themselves are never bounds-checked. -/
def Tensor.getSub {α : Type} [Inhabited α] (t : Tensor α) (idxs : List Nat) :
    Except Err (Tensor α) := do
  let flat := flatOffset t.m_strides idxs
  let extents := t.m_extents.drop idxs.length
  let offset := (blockSizeInt extents).toNat
  let result ← extentsCtor α extents
  copyLoop t.m_data flat flat offset result

/-! ### Element-wise arithmetic and broadcasting -/

/-- The shared loop shape of `operator+`, `operator-`, `operator*`
(core.hpp:334-366): `result` starts as a copy of the left operand and
`result[idx] (op)= other[idx]` runs for `idx` in `[0, result.size())`.
Both accesses go through the bounds-checked `operator[]`; `result`'s own
check never fires (`idx < result.m_size` throughout), `other`'s fires
exactly when `other` is shorter (its `m_size` positive) than the result. -/
def binopLoop (f : Int → Int → Int) (other : Tensor Int) :
    Nat → Nat → Tensor Int → Except Err (Tensor Int)
  | _, 0, result => .ok result
  | i, fuel + 1, result => do
    let y ← other.idx i
    let x ← result.idx i
    let r ← result.setIdx i (f x y)
    binopLoop f other (i + 1) fuel r

/-- `operator+(const tensor&)` (core.hpp:334-340).  No shape or size check
of any kind precedes the loop. -/
def Tensor.add (t other : Tensor Int) : Except Err (Tensor Int) :=
  binopLoop (fun a b => a + b) other 0 t.m_size t

/-- `operator-(const tensor&)` (core.hpp:347-353). -/
def Tensor.sub (t other : Tensor Int) : Except Err (Tensor Int) :=
  binopLoop (fun a b => a - b) other 0 t.m_size t

/-- `operator*(const tensor&)` (core.hpp:360-366). -/
def Tensor.mul (t other : Tensor Int) : Except Err (Tensor Int) :=
  binopLoop (fun a b => a * b) other 0 t.m_size t

/-- The loop of `operator/(const tensor&)` (core.hpp:375-381): at each index
the divisor element is read first and tested against zero
(`throw std::domain_error` on a hit) before the division of that element is
performed, so the copy is abandoned at the first zero in flat order. -/
def divLoop (other : Tensor Int) :
    Nat → Nat → Tensor Int → Except Err (Tensor Int)
  | _, 0, result => .ok result
  | i, fuel + 1, result => do
    let y ← other.idx i
    if y = 0 then .error .domainError
    else do
      let x ← result.idx i
      let r ← result.setIdx i (x / y)
      divLoop other (i + 1) fuel r

/-- `operator/(const tensor&)` (core.hpp:373-382): check-then-divide per
element; the left operand is copied up front and only the copy is mutated
(`Int` division truncates toward zero like C++ integral division). -/
def Tensor.div (t other : Tensor Int) : Except Err (Tensor Int) :=
  divLoop other 0 t.m_size t

/-- The shared loop of the scalar broadcasting operators
(core.hpp:394-449): `result[idx] (op)= val` over `[0, result.size())`.  The
bounds check of `operator[]` never fires. -/
def scalarLoop (f : Int → Int) :
    Nat → Nat → Tensor Int → Except Err (Tensor Int)
  | _, 0, result => .ok result
  | i, fuel + 1, result => do
    let x ← result.idx i
    let r ← result.setIdx i (f x)
    scalarLoop f (i + 1) fuel r

/-- Scalar `operator+(const U&)` (core.hpp:394-401). -/
def Tensor.addScalar (t : Tensor Int) (val : Int) : Except Err (Tensor Int) :=
  scalarLoop (fun a => a + val) 0 t.m_size t

/-- Scalar `operator/(const U&)` (core.hpp:439-449): the zero test on the
scalar happens once, before the copy loop touches any element. -/
def Tensor.divScalar (t : Tensor Int) (val : Int) : Except Err (Tensor Int) :=
  if val = 0 then .error .domainError
  else scalarLoop (fun a => a / val) 0 t.m_size t

/-! ### Comparison operators

In every comparison loop the left element is read raw (`m_data[idx]`) and
the right element through `other`'s bounds-checked `operator[]`; the loops
run only after the size guard(s), with `idx < m_size = other.m_size`, so
that check can never fire and the loops are embedded as pure `Bool`
recursions over the buffers. -/

/-- The element loop of `operator==` (core.hpp:467-471): `false` at the
first differing pair. -/
def eqLoop (a b : Tensor Int) : Nat → Nat → Bool
  | _, 0 => true
  | i, fuel + 1 =>
    if a.m_data.getD i default ≠ b.m_data.getD i default then false
    else eqLoop a b (i + 1) fuel

/-- `operator==` (core.hpp:460-473): size fast-reject, then extents, then
every element. -/
def Tensor.eq (t other : Tensor Int) : Bool :=
  if t.m_size ≠ other.m_size then false
  else if t.m_extents ≠ other.m_extents then false
  else eqLoop t other 0 t.m_size

/-- The element loop of `operator!=` (core.hpp:487-491): as written in the
source, it returns `false` at the first pair of EQUAL elements and `true`
only when every pair differs. -/
def neLoop (a b : Tensor Int) : Nat → Nat → Bool
  | _, 0 => true
  | i, fuel + 1 =>
    if a.m_data.getD i default = b.m_data.getD i default then false
    else neLoop a b (i + 1) fuel

/-- `operator!=` (core.hpp:480-493): `true` on size or extents mismatch,
otherwise the (inverted) element loop above. -/
def Tensor.ne (t other : Tensor Int) : Bool :=
  if t.m_size ≠ other.m_size then true
  else if t.m_extents ≠ other.m_extents then true
  else neLoop t other 0 t.m_size

/-- The element loop shared by the four ordering operators
(core.hpp:507-511 etc.): `false` at the first index where the element-wise
relation `rel` fails, `true` when it holds everywhere. -/
def domLoop (rel : Int → Int → Bool) (a b : Tensor Int) : Nat → Nat → Bool
  | _, 0 => true
  | i, fuel + 1 =>
    if rel (a.m_data.getD i default) (b.m_data.getD i default) then
      domLoop rel a b (i + 1) fuel
    else false

/-- `operator>` (core.hpp:500-513): size guard, extents guard, then `false`
at any `m_data[idx] <= other[idx]`. -/
def Tensor.gt (t other : Tensor Int) : Except Err Bool :=
  if t.m_size ≠ other.m_size then .error .sizeMismatch
  else if t.m_extents ≠ other.m_extents then .error .dimMismatch
  else .ok (domLoop (fun x y => y < x) t other 0 t.m_size)

/-- `operator>=` (core.hpp:520-530): only the size guard appears in the
source — unlike its three siblings it performs no extents comparison. -/
def Tensor.ge (t other : Tensor Int) : Except Err Bool :=
  if t.m_size ≠ other.m_size then .error .sizeMismatch
  else .ok (domLoop (fun x y => y ≤ x) t other 0 t.m_size)

/-- `operator<` (core.hpp:537-550): size guard, extents guard, then `false`
at any `m_data[idx] >= other[idx]`. -/
def Tensor.lt (t other : Tensor Int) : Except Err Bool :=
  if t.m_size ≠ other.m_size then .error .sizeMismatch
  else if t.m_extents ≠ other.m_extents then .error .dimMismatch
  else .ok (domLoop (fun x y => x < y) t other 0 t.m_size)

/-- `operator<=` (core.hpp:557-570): size guard, extents guard, then
`false` at any `m_data[idx] > other[idx]`. -/
def Tensor.le (t other : Tensor Int) : Except Err Bool :=
  if t.m_size ≠ other.m_size then .error .sizeMismatch
  else if t.m_extents ≠ other.m_extents then .error .dimMismatch
  else .ok (domLoop (fun x y => x ≤ y) t other 0 t.m_size)

/-! ### Nested-list construction -/

/-- The validation/extents pass of the nested-list constructor
(core.hpp:88-99).  State: accumulated `size`, the reference `check_size`,
and the extents array.  While the accumulated size is still `0` the guard
branch re-fires: the extents are (re)copied from the current child and
`check_size` is reset; otherwise a child whose SIZE differs from
`check_size` throws `runtime_error("Tensor dimension mismatch.")` — extents
are never compared.  The copy `std::copy(t.m_extents.begin(),
t.m_extents.begin() + Order, m_extents.begin() + 1)` writes the child's
`Order` extents at positions `1..Order` of the `Order`-slot parent array:
its last write lands one past the end (on `m_size`, by object layout), so
the parent array keeps `k` followed by the child's first `Order - 1`
extents; the clobbered `m_size` is overwritten right after
(core.hpp:101). -/
def nestedPass (k : Nat) :
    Nat → Nat → List Nat → List (Tensor Int) → Except Err (Nat × List Nat)
  | size, _, ext, [] => .ok (size, ext)
  | size, checkSize, ext, t :: rest =>
    if size = 0 then
      nestedPass k (size + t.m_size) t.m_size
        (k :: t.m_extents.take (t.m_extents.length - 1)) rest
    else if checkSize ≠ t.m_size then .error .dimMismatch
    else nestedPass k (size + t.m_size) checkSize ext rest

/-- The concatenation pass (core.hpp:103-108): each child contributes its
first `t.size()` buffer elements, in child order. -/
def nestedData (children : List (Tensor Int)) : List Int :=
  children.flatMap fun t => (List.range t.m_size).map (t.m_data.getD · default)

/-- Embedding of the nested-list constructor
`tensor(std::initializer_list<tensor<T, Order>>)` (core.hpp:87-115):
validation/extents pass, buffer concatenation, then the same `float` stride
loop as the extents constructor.  For an empty list the parent extents are
the indeterminate default-initialized array, modelled as `[]`. -/
def nestedCtor (children : List (Tensor Int)) : Except Err (Tensor Int) := do
  let p ← nestedPass children.length 0 0 [] children
  match stridesLoop (f32ofNat p.1) p.2 with
  | none => .error .undefined
  | some strides => .ok ⟨nestedData children, p.2, p.1, strides⟩

end CoreTensor

namespace CoreTensor

/-- For a tensor with `0 < m_size < 2^64`, the wrapped `m_size - 1` is the
ordinary `m_size - 1`. -/
theorem sizeMinusOne_pos {α : Type} (t : Tensor α) (h0 : 0 < t.m_size)
    (h1 : t.m_size < U64) : t.sizeMinusOne = t.m_size - 1 := by
  unfold Tensor.sizeMinusOne
  have h2 : t.m_size + (U64 - 1) = (t.m_size - 1) + U64 := by omega
  rw [h2, Nat.add_mod_right]
  exact Nat.mod_eq_of_lt (by omega)

/-- For an empty tensor (`m_size = 0`), the wrapped `m_size - 1` is
`2^64 - 1`, so the bounds check of `operator[]` can never fire. -/
theorem sizeMinusOne_zero {α : Type} (t : Tensor α) (h0 : t.m_size = 0) :
    t.sizeMinusOne = U64 - 1 := by
  unfold Tensor.sizeMinusOne
  rw [h0, Nat.zero_add]
  exact Nat.mod_eq_of_lt (by unfold U64; omega)

/-- On a positive-size tensor, `operator[]` errors exactly on `i ≥ m_size`. -/
theorem idx_spec {α : Type} [Inhabited α] (t : Tensor α) (i : Nat)
    (h0 : 0 < t.m_size) (h1 : t.m_size < U64) :
    t.idx i = if i < t.m_size then .ok (t.m_data.getD i default)
              else .error .outOfRange := by
  unfold Tensor.idx
  rw [sizeMinusOne_pos t h0 h1]
  rcases Nat.lt_or_ge i t.m_size with h | h
  · rw [if_neg (by omega), if_pos h]
  · rw [if_pos (by omega), if_neg (by omega)]

/-- On an empty tensor, `operator[]` never raises: the `size_type`
subtraction `m_size - 1` wraps to `2^64 - 1` and the check `idx > m_size - 1`
is false for every representable index, so the source falls through to the
(undefined) buffer read. -/
theorem idx_empty {α : Type} [Inhabited α] (t : Tensor α) (i : Nat)
    (h0 : t.m_size = 0) (hi : i < U64) :
    t.idx i = .ok (t.m_data.getD i default) := by
  unfold Tensor.idx
  rw [sizeMinusOne_zero t h0, if_neg (by omega)]

/-- Decidable equality of `Except` results (componentwise), so that closed
runs of the embedded operations can be settled by `decide`. -/
instance {ε α : Type} [DecidableEq ε] [DecidableEq α] :
    DecidableEq (Except ε α) := fun x y =>
  match x, y with
  | .error a, .error b => decidable_of_iff (a = b) (by simp)
  | .ok a, .ok b => decidable_of_iff (a = b) (by simp)
  | .error _, .ok _ => .isFalse (by simp)
  | .ok _, .error _ => .isFalse (by simp)

/-! ### The row-major stride law and the exact regime of the `float` loop -/

/-- The row-major strides the spec asserts: `strides[i]` is the product of
the extents after position `i`. -/
def trailingStrides : List Nat → List Nat
  | [] => []
  | _ :: rest => rest.prod :: trailingStrides rest

theorem trailingStrides_length (l : List Nat) :
    (trailingStrides l).length = l.length := by
  induction l with
  | nil => rfl
  | cons e rest ih => simp [trailingStrides, ih]

theorem trailingStrides_getD (l : List Nat) (i : Nat) (hi : i < l.length) :
    (trailingStrides l).getD i 0 = (l.drop (i + 1)).prod := by
  induction l generalizing i with
  | nil => simp at hi
  | cons e rest ih =>
    cases i with
    | zero => simp [trailingStrides]
    | succ j =>
      simp only [trailingStrides, List.getD_cons_succ, List.drop_succ_cons]
      exact ih j (by simpa using hi)

/-- Rounding an exact quotient that is an integer of at most `2^24`: the
value is representable, so binary32 rounding returns it unchanged. -/
theorem roundF_exact (a b : Nat) (hdvd : a % b = 0) (hq : a / b ≤ F24)
    (_hb : 0 < b) : roundF a b = ⟨a / b, 0⟩ := by
  unfold roundF
  rcases Nat.eq_zero_or_pos a with ha | ha
  · subst ha
    rw [if_pos rfl, Nat.zero_div]
  · rw [if_neg (by omega), if_pos ⟨hdvd, hq⟩]

/-- `static_cast<float>(n)` is exact for `n ≤ 2^24`. -/
theorem f32ofNat_small (n : Nat) (h : n ≤ F24) : f32ofNat n = ⟨n, 0⟩ := by
  have := roundF_exact n 1 (Nat.mod_one n) (by simpa using h) Nat.one_pos
  simpa [f32ofNat, Nat.div_one] using this

/-- Truncating an exactly-integral `float` value returns it. -/
theorem f32toSizeType_int (n : Nat) : f32toSizeType ⟨n, 0⟩ = n := by
  simp [f32toSizeType]

/-- In the exact regime — every extent positive and the running product at
most `2^24` — the `float` stride loop computes exactly the row-major
trailing products. -/
theorem stridesLoop_exact (l : List Nat) (hpos : ∀ x ∈ l, 0 < x)
    (hsmall : l.prod ≤ F24) :
    stridesLoop ⟨l.prod, 0⟩ l = some (trailingStrides l) := by
  induction l with
  | nil => rfl
  | cons e rest ih =>
    have he : 0 < e := hpos e (by simp)
    have hrest : ∀ x ∈ rest, 0 < x := fun x hx => hpos x (by simp [hx])
    have hprod : (e :: rest).prod = e * rest.prod := by simp
    have hrsmall : rest.prod ≤ F24 := by
      calc rest.prod ≤ e * rest.prod := Nat.le_mul_of_pos_left _ he
        _ = (e :: rest).prod := hprod.symm
        _ ≤ F24 := hsmall
    have hesmall : e ≤ F24 := by
      have h1 : 0 < rest.prod := List.prod_pos hrest
      calc e ≤ e * rest.prod := Nat.le_mul_of_pos_right _ h1
        _ = (e :: rest).prod := hprod.symm
        _ ≤ F24 := hsmall
    have hdiv : f32div ⟨(e :: rest).prod, 0⟩ (f32ofNat e) =
        some ⟨rest.prod, 0⟩ := by
      rw [f32ofNat_small e hesmall]
      unfold f32div
      rw [if_neg (by simpa using he.ne')]
      rw [hprod, roundF_exact (e * rest.prod) e (Nat.mul_mod_right e _)
        (by rw [Nat.mul_div_cancel_left _ he]; exact hrsmall) he]
      simp [Nat.mul_div_cancel_left _ he]
    unfold stridesLoop
    rw [hdiv]
    simp only [ih hrest hrsmall, f32toSizeType_int, trailingStrides]

/-- The `size_type` product `std::reduce(..., multiplies<size_type>())`
agrees with the exact product while no intermediate wraps; positivity of
the entries keeps every prefix product below the final one. -/
theorem sizeProduct_foldl (l : List Nat) (a : Nat) (hpos : ∀ x ∈ l, 0 < x)
    (h : a * l.prod < U64) :
    l.foldl (fun a e => a * e % U64) a = a * l.prod := by
  induction l generalizing a with
  | nil => simp
  | cons e rest ih =>
    have hrpos : 0 < rest.prod :=
      List.prod_pos fun x hx => hpos x (by simp [hx])
    have hae : a * e ≤ a * e * rest.prod := Nat.le_mul_of_pos_right _ hrpos
    have h2 : a * e * rest.prod < U64 := by
      have : a * (e :: rest).prod = a * e * rest.prod := by
        simp [Nat.mul_assoc]
      omega
    have hlt : a * e < U64 := by omega
    simp only [List.foldl_cons, Nat.mod_eq_of_lt hlt]
    rw [ih (a * e) (fun x hx => hpos x (by simp [hx])) h2]
    simp [Nat.mul_assoc]

theorem sizeProduct_eq (l : List Nat) (hpos : ∀ x ∈ l, 0 < x)
    (h : l.prod < U64) : sizeProduct l = l.prod := by
  have := sizeProduct_foldl l 1 hpos (by simpa using h)
  simpa [sizeProduct] using this

/-- The exact-regime behaviour of the extents constructor: element count is
the exact product and the strides are the row-major trailing products. -/
theorem extentsCtor_exact (e : List Nat) (hpos : ∀ x ∈ e, 0 < x)
    (hsmall : e.prod ≤ F24) :
    extentsCtor Int e =
      .ok ⟨List.replicate e.prod 0, e, e.prod, trailingStrides e⟩ := by
  have hU : e.prod < U64 := by
    have : F24 < U64 := by unfold F24 U64; omega
    omega
  have hsz : sizeProduct e = e.prod := sizeProduct_eq e hpos hU
  unfold extentsCtor
  simp only [hsz, f32ofNat_small e.prod hsmall, stridesLoop_exact e hpos hsmall]
  rfl

/-! ### Claim C1 -/

/-- Claim C1, refuted as stated: the tensor constructed from the extents
array `{3, 16777217}` has `m_strides = {16777218, 1}`, but the claimed
row-major invariant demands `strides[0] = strides[1] * extents[1] =
16777217`.  (The size `3 * 16777217 = 50331651` exceeds `2^24`, so the
binary32 stride loop rounds: `(float)50331651 = 50331652`, and
`50331652.0f / 3.0f` rounds up to `16777218.0f`.) -/
theorem C1_counterexample :
    (extentsCtor Int [3, 16777217]).toOption.map
        (fun t => (t.m_extents, t.m_strides)) =
      some ([3, 16777217], [16777218, 1]) ∧
    16777218 ≠ 1 * 16777217 := by
  constructor
  · decide
  · decide

/-- Claim C1, as amended: for every extents array `e` whose entries are all
positive and whose product is at most `2^24` (so that the `float` stride
computation is exact), the constructed tensor satisfies the shape
invariants — `size()` is the product of the extents, `strides[Order-1] = 1`,
and `strides[i] = strides[i+1] * extents[i+1]` for `i + 1 < Order`. -/
theorem C1_shape_invariants (e : List Nat) (hpos : ∀ x ∈ e, 0 < x)
    (hsmall : e.prod ≤ F24) :
    ∀ t : Tensor Int, extentsCtor Int e = .ok t →
      t.m_size = e.prod ∧
      (e ≠ [] → t.m_strides.getD (e.length - 1) 0 = 1) ∧
      (∀ i, i + 1 < e.length →
        t.m_strides.getD i 0 =
          t.m_strides.getD (i + 1) 0 * e.getD (i + 1) 0) := by
  intro t ht
  rw [extentsCtor_exact e hpos hsmall] at ht
  injection ht with ht
  subst ht
  refine ⟨rfl, ?_, ?_⟩
  · intro hne
    have hlen : 0 < e.length := List.length_pos.mpr hne
    rw [trailingStrides_getD e (e.length - 1) (by omega)]
    have : e.length - 1 + 1 = e.length := by omega
    rw [this, List.drop_length, List.prod_nil]
  · intro i hi
    rw [trailingStrides_getD e i (by omega),
        trailingStrides_getD e (i + 1) (by omega)]
    have hd : e.drop (i + 1) = e.getD (i + 1) 0 :: e.drop (i + 2) := by
      have h1 : i + 1 < e.length := hi
      rw [List.getD_eq_getElem e 0 h1]
      exact (List.drop_eq_getElem_cons h1).trans (by rfl)
    rw [hd, List.prod_cons]
    ring_nf

/-- Witness for `C1_shape_invariants` at `e = [2, 3]`: the constructed
tensor has size `6`, strides `{3, 1}`, and the invariants hold. -/
theorem C1_shape_invariants_witness :
    (∀ x ∈ [2, 3], 0 < x) ∧ [2, 3].prod ≤ F24 ∧
    (∀ t : Tensor Int, extentsCtor Int [2, 3] = .ok t →
      t.m_size = [2, 3].prod ∧
      (([2, 3] : List Nat) ≠ [] →
        t.m_strides.getD ([2, 3].length - 1) 0 = 1) ∧
      (∀ i, i + 1 < [2, 3].length →
        t.m_strides.getD i 0 =
          t.m_strides.getD (i + 1) 0 * [2, 3].getD (i + 1) 0)) :=
  ⟨by decide, by decide,
   C1_shape_invariants [2, 3] (by decide) (by decide)⟩

/-! ### Claim C2 -/

/-- Claim C2, showing the code wrong at `size() == 0`: on a
default-constructed (empty, size-`0`) rank-1 tensor, the flat index
operator raises no out-of-range error at all — `idx > m_size - 1` wraps in
`size_type` to `idx > 2^64 - 1`, which never holds — and falls through to
the (undefined) read of the null buffer; the claim and spec demand an
out-of-range failure for every index when `size() == 0`. -/
theorem C2_flat_index_size_zero :
    (defaultCtor Int 1).idx 0 = .ok 0 ∧
    (defaultCtor Int 1).idx (U64 - 1) = .ok 0 ∧
    (defaultCtor Int 1).m_size = 0 := by
  refine ⟨?_, ?_, rfl⟩ <;> decide

/-! ### Claim C4 -/

/-- Claim C4, showing the code wrong: on the rank-1 tensors `{1, 2}` and
`{1, 3}` — unequal, since their second elements differ — `operator==`
correctly returns `false`, but `operator!=` ALSO returns `false`: its loop
(core.hpp:487-491) bails out with `false` at the first pair of EQUAL
elements (here the leading `1`s), so `!=` is not the complement of `==`,
contradicting both the spec and the operator's own documentation. -/
theorem C4_neq_not_complement :
    Tensor.eq (listCtor Int 1 [1, 2]) (listCtor Int 1 [1, 3]) = false ∧
    Tensor.ne (listCtor Int 1 [1, 2]) (listCtor Int 1 [1, 3]) = false := by
  constructor
  · decide
  · decide

/-! ### Claim C7 -/

/-- Claim C7, refuted as stated: the tensors built from extents `{1, 2}`
and `{2, 1}` have equal sizes but different extents, yet `operator>=`
(which, unlike `>`, `<` and `<=`, performs no extents comparison,
core.hpp:520-530) raises no error and returns `true` (both buffers are
zero-filled here). -/
theorem C7_counterexample :
    extentsCtor Int [1, 2] = .ok ⟨[0, 0], [1, 2], 2, [2, 1]⟩ ∧
    extentsCtor Int [2, 1] = .ok ⟨[0, 0], [2, 1], 2, [1, 1]⟩ ∧
    ([1, 2] : List Nat) ≠ [2, 1] ∧
    Tensor.ge ⟨[0, 0], [1, 2], 2, [2, 1]⟩ ⟨[0, 0], [2, 1], 2, [1, 1]⟩ =
      .ok true := by
  refine ⟨?_, ?_, ?_, ?_⟩ <;> decide

/-- Claim C7, as amended: all four ordering operators fail with a
size-mismatch error when the sizes differ; when the sizes agree but the
extents differ, `>`, `<` and `<=` fail with a dimension-mismatch error,
while `>=` checks only the size and goes on to produce a result. -/
theorem C7_ordering_guards (a b : Tensor Int) :
    (a.m_size ≠ b.m_size →
      a.gt b = .error .sizeMismatch ∧ a.ge b = .error .sizeMismatch ∧
      a.lt b = .error .sizeMismatch ∧ a.le b = .error .sizeMismatch) ∧
    (a.m_size = b.m_size → a.m_extents ≠ b.m_extents →
      a.gt b = .error .dimMismatch ∧ a.lt b = .error .dimMismatch ∧
      a.le b = .error .dimMismatch ∧ ∃ r, a.ge b = .ok r) := by
  constructor
  · intro hs
    refine ⟨?_, ?_, ?_, ?_⟩ <;>
      simp [Tensor.gt, Tensor.ge, Tensor.lt, Tensor.le, hs]
  · intro hs he
    refine ⟨?_, ?_, ?_, ?_⟩ <;>
      simp [Tensor.gt, Tensor.ge, Tensor.lt, Tensor.le, hs, he]

/-- Witness for `C7_ordering_guards`: the size-mismatch arm at rank-1
`{0}` vs `{0, 0}`, and the extents-mismatch arm at the zero-filled tensors
of extents `{1, 2}` and `{2, 1}`. -/
theorem C7_ordering_guards_witness :
    (Tensor.gt (listCtor Int 1 [0]) (listCtor Int 1 [0, 0]) =
        .error .sizeMismatch ∧
      Tensor.ge (listCtor Int 1 [0]) (listCtor Int 1 [0, 0]) =
        .error .sizeMismatch ∧
      Tensor.lt (listCtor Int 1 [0]) (listCtor Int 1 [0, 0]) =
        .error .sizeMismatch ∧
      Tensor.le (listCtor Int 1 [0]) (listCtor Int 1 [0, 0]) =
        .error .sizeMismatch) ∧
    (Tensor.gt ⟨[0, 0], [1, 2], 2, [2, 1]⟩ ⟨[0, 0], [2, 1], 2, [1, 1]⟩ =
        .error .dimMismatch ∧
      Tensor.lt ⟨[0, 0], [1, 2], 2, [2, 1]⟩ ⟨[0, 0], [2, 1], 2, [1, 1]⟩ =
        .error .dimMismatch ∧
      Tensor.le ⟨[0, 0], [1, 2], 2, [2, 1]⟩ ⟨[0, 0], [2, 1], 2, [1, 1]⟩ =
        .error .dimMismatch ∧
      ∃ r, Tensor.ge ⟨[0, 0], [1, 2], 2, [2, 1]⟩ ⟨[0, 0], [2, 1], 2, [1, 1]⟩ =
        .ok r) :=
  ⟨(C7_ordering_guards (listCtor Int 1 [0]) (listCtor Int 1 [0, 0])).1
      (by decide),
   (C7_ordering_guards ⟨[0, 0], [1, 2], 2, [2, 1]⟩
      ⟨[0, 0], [2, 1], 2, [1, 1]⟩).2 (by decide) (by decide)⟩

/-! ### Characterizations of the element loops -/

theorem getD_set {α : Type} (l : List α) (i j : Nat) (v d : α) :
    (l.set i v).getD j d = if i = j ∧ i < l.length then v else l.getD j d := by
  rw [List.getD_eq_getElem?_getD, List.getD_eq_getElem?_getD, List.getElem?_set]
  by_cases h1 : i = j
  · subst h1
    by_cases h2 : i < l.length
    · simp [h2]
    · rw [if_pos rfl, if_neg h2, if_neg (fun hc => h2 hc.2),
          List.getElem?_eq_none (by omega)]
  · rw [if_neg h1, if_neg (fun hc => h1 hc.1)]

/-- The `Inhabited` default of `Int` used for undefined reads is `0`. -/
theorem int_default : (default : Int) = 0 := rfl

/-- `Except.ok` feeds straight through a monadic bind. -/
theorem okBind {ε α β : Type} (a : α) (g : α → Except ε β) :
    (Except.ok a >>= g : Except ε β) = g a := rfl

/-- `operator[]` read in bounds. -/
theorem idx_ok {α : Type} [Inhabited α] (t : Tensor α) (i : Nat)
    (hi : i < t.m_size) (hu : t.m_size < U64) :
    t.idx i = .ok (t.m_data.getD i default) := by
  rw [idx_spec t i (by omega) hu, if_pos hi]

/-- `operator[]` write in bounds. -/
theorem setIdx_ok {α : Type} [Inhabited α] (t : Tensor α) (i : Nat) (v : α)
    (hi : i < t.m_size) (hu : t.m_size < U64) :
    t.setIdx i v = .ok { t with m_data := t.m_data.set i v } := by
  unfold Tensor.setIdx
  rw [sizeMinusOne_pos t (by omega) hu, if_neg (by omega)]

/-- The loop shared by `operator+`, `operator-`, `operator*` succeeds and
writes `f left[j] other[j]` at every index of the window whenever the
window fits in both operands. -/
theorem binopLoop_spec (f : Int → Int → Int) (b : Tensor Int) :
    ∀ (fuel i : Nat) (res : Tensor Int),
      i + fuel ≤ res.m_size → res.m_size ≤ b.m_size →
      res.m_size < U64 → b.m_size < U64 →
      res.m_data.length = res.m_size →
      ∃ r : Tensor Int, binopLoop f b i fuel res = .ok r ∧
        r.m_extents = res.m_extents ∧ r.m_size = res.m_size ∧
        r.m_strides = res.m_strides ∧ r.m_data.length = res.m_data.length ∧
        ∀ j : Nat, r.m_data.getD j 0 =
          if i ≤ j ∧ j < i + fuel then
            f (res.m_data.getD j 0) (b.m_data.getD j 0)
          else res.m_data.getD j 0 := by
  intro fuel
  induction fuel with
  | zero =>
    intro i res _ _ _ _ _
    exact ⟨res, rfl, rfl, rfl, rfl, rfl, fun j => by
      rw [if_neg (by omega)]⟩
  | succ fuel ih =>
    intro i res hfit hsz hru hbu hlen
    have hi : i < res.m_size := by omega
    have hib : i < b.m_size := by omega
    have step : binopLoop f b i (fuel + 1) res =
        binopLoop f b (i + 1) fuel
          ⟨res.m_data.set i (f (res.m_data.getD i 0) (b.m_data.getD i 0)),
           res.m_extents, res.m_size, res.m_strides⟩ := by
      simp only [binopLoop, idx_ok b i hib hbu, idx_ok res i hi hru, okBind,
        int_default, setIdx_ok res i _ hi hru]
    obtain ⟨r, hr, he2, hs2, hst2, hl2, hget⟩ :=
      ih (i + 1)
        ⟨res.m_data.set i (f (res.m_data.getD i 0) (b.m_data.getD i 0)),
         res.m_extents, res.m_size, res.m_strides⟩
        (by dsimp only; omega) (by dsimp only; omega) (by dsimp only; omega)
        hbu (by dsimp only; rw [List.length_set]; omega)
    refine ⟨r, step.trans hr, he2, hs2, hst2,
      by rw [hl2]; dsimp only; rw [List.length_set], fun j => ?_⟩
    rw [hget j]
    dsimp only
    by_cases hj : i + 1 ≤ j ∧ j < i + 1 + fuel
    · rw [if_pos hj, if_pos (by omega), getD_set, if_neg (by omega)]
    · rw [if_neg hj]
      by_cases hji : j = i
      · subst hji
        rw [getD_set, if_pos ⟨rfl, by omega⟩, if_pos (by omega)]
      · rw [getD_set, if_neg (by omega), if_neg (by omega)]

/-- The division loop aborts with a domain error as soon as the window
contains a zero divisor element. -/
theorem divLoop_err (b : Tensor Int) :
    ∀ (fuel i : Nat) (res : Tensor Int),
      i + fuel ≤ res.m_size → res.m_size ≤ b.m_size →
      res.m_size < U64 → b.m_size < U64 →
      res.m_data.length = res.m_size →
      (∃ j, i ≤ j ∧ j < i + fuel ∧ b.m_data.getD j 0 = 0) →
      divLoop b i fuel res = .error .domainError := by
  intro fuel
  induction fuel with
  | zero =>
    intro i res _ _ _ _ _ hz
    obtain ⟨j, h1, h2, _⟩ := hz
    omega
  | succ fuel ih =>
    intro i res hfit hsz hru hbu hlen hz
    have hi : i < res.m_size := by omega
    have hib : i < b.m_size := by omega
    by_cases h0 : b.m_data.getD i 0 = 0
    · simp only [divLoop, idx_ok b i hib hbu, okBind, int_default, h0]
      simp
    · have step : divLoop b i (fuel + 1) res =
          divLoop b (i + 1) fuel
            ⟨res.m_data.set i (res.m_data.getD i 0 / b.m_data.getD i 0),
             res.m_extents, res.m_size, res.m_strides⟩ := by
        simp only [divLoop, idx_ok b i hib hbu, okBind, int_default,
          if_neg h0, idx_ok res i hi hru, setIdx_ok res i _ hi hru]
      rw [step]
      have hz2 : ∃ j, i + 1 ≤ j ∧ j < i + 1 + fuel ∧
          b.m_data.getD j 0 = 0 := by
        obtain ⟨j, h1, h2, h3⟩ := hz
        rcases Nat.eq_or_lt_of_le h1 with h | h
        · exact absurd h3 (h ▸ h0)
        · exact ⟨j, by omega, by omega, h3⟩
      exact ih (i + 1) _ (by dsimp only; omega) (by dsimp only; omega)
        (by dsimp only; omega) hbu
        (by dsimp only; rw [List.length_set]; omega) hz2

/-- The division loop succeeds and writes the element-wise quotients when
the window contains no zero divisor. -/
theorem divLoop_ok (b : Tensor Int) :
    ∀ (fuel i : Nat) (res : Tensor Int),
      i + fuel ≤ res.m_size → res.m_size ≤ b.m_size →
      res.m_size < U64 → b.m_size < U64 →
      res.m_data.length = res.m_size →
      (∀ j, i ≤ j → j < i + fuel → b.m_data.getD j 0 ≠ 0) →
      ∃ r : Tensor Int, divLoop b i fuel res = .ok r ∧
        r.m_extents = res.m_extents ∧ r.m_size = res.m_size ∧
        r.m_strides = res.m_strides ∧ r.m_data.length = res.m_data.length ∧
        ∀ j : Nat, r.m_data.getD j 0 =
          if i ≤ j ∧ j < i + fuel then
            res.m_data.getD j 0 / b.m_data.getD j 0
          else res.m_data.getD j 0 := by
  intro fuel
  induction fuel with
  | zero =>
    intro i res _ _ _ _ _ _
    exact ⟨res, rfl, rfl, rfl, rfl, rfl, fun j => by
      rw [if_neg (by omega)]⟩
  | succ fuel ih =>
    intro i res hfit hsz hru hbu hlen hnz
    have hi : i < res.m_size := by omega
    have hib : i < b.m_size := by omega
    have h0 : b.m_data.getD i 0 ≠ 0 := hnz i (by omega) (by omega)
    have step : divLoop b i (fuel + 1) res =
        divLoop b (i + 1) fuel
          ⟨res.m_data.set i (res.m_data.getD i 0 / b.m_data.getD i 0),
           res.m_extents, res.m_size, res.m_strides⟩ := by
      simp only [divLoop, idx_ok b i hib hbu, okBind, int_default,
        if_neg h0, idx_ok res i hi hru, setIdx_ok res i _ hi hru]
    obtain ⟨r, hr, he2, hs2, hst2, hl2, hget⟩ :=
      ih (i + 1)
        ⟨res.m_data.set i (res.m_data.getD i 0 / b.m_data.getD i 0),
         res.m_extents, res.m_size, res.m_strides⟩
        (by dsimp only; omega) (by dsimp only; omega) (by dsimp only; omega)
        hbu (by dsimp only; rw [List.length_set]; omega)
        (fun j h1 h2 => hnz j (by omega) (by omega))
    refine ⟨r, step.trans hr, he2, hs2, hst2,
      by rw [hl2]; dsimp only; rw [List.length_set], fun j => ?_⟩
    rw [hget j]
    dsimp only
    by_cases hj : i + 1 ≤ j ∧ j < i + 1 + fuel
    · rw [if_pos hj, if_pos (by omega), getD_set, if_neg (by omega)]
    · rw [if_neg hj]
      by_cases hji : j = i
      · subst hji
        rw [getD_set, if_pos ⟨rfl, by omega⟩, if_pos (by omega)]
      · rw [getD_set, if_neg (by omega), if_neg (by omega)]

/-- The scalar broadcast loop succeeds and maps `f` over the window. -/
theorem scalarLoop_spec (f : Int → Int) :
    ∀ (fuel i : Nat) (res : Tensor Int),
      i + fuel ≤ res.m_size → res.m_size < U64 →
      res.m_data.length = res.m_size →
      ∃ r : Tensor Int, scalarLoop f i fuel res = .ok r ∧
        r.m_extents = res.m_extents ∧ r.m_size = res.m_size ∧
        r.m_strides = res.m_strides ∧ r.m_data.length = res.m_data.length ∧
        ∀ j : Nat, r.m_data.getD j 0 =
          if i ≤ j ∧ j < i + fuel then f (res.m_data.getD j 0)
          else res.m_data.getD j 0 := by
  intro fuel
  induction fuel with
  | zero =>
    intro i res _ _ _
    exact ⟨res, rfl, rfl, rfl, rfl, rfl, fun j => by
      rw [if_neg (by omega)]⟩
  | succ fuel ih =>
    intro i res hfit hru hlen
    have hi : i < res.m_size := by omega
    have step : scalarLoop f i (fuel + 1) res =
        scalarLoop f (i + 1) fuel
          ⟨res.m_data.set i (f (res.m_data.getD i 0)),
           res.m_extents, res.m_size, res.m_strides⟩ := by
      simp only [scalarLoop, idx_ok res i hi hru, okBind, int_default,
        setIdx_ok res i _ hi hru]
    obtain ⟨r, hr, he2, hs2, hst2, hl2, hget⟩ :=
      ih (i + 1)
        ⟨res.m_data.set i (f (res.m_data.getD i 0)),
         res.m_extents, res.m_size, res.m_strides⟩
        (by dsimp only; omega) (by dsimp only; omega)
        (by dsimp only; rw [List.length_set]; omega)
    refine ⟨r, step.trans hr, he2, hs2, hst2,
      by rw [hl2]; dsimp only; rw [List.length_set], fun j => ?_⟩
    rw [hget j]
    dsimp only
    by_cases hj : i + 1 ≤ j ∧ j < i + 1 + fuel
    · rw [if_pos hj, if_pos (by omega), getD_set, if_neg (by omega)]
    · rw [if_neg hj]
      by_cases hji : j = i
      · subst hji
        rw [getD_set, if_pos ⟨rfl, by omega⟩, if_pos (by omega)]
      · rw [getD_set, if_neg (by omega), if_neg (by omega)]

/-- The dominance loop is `true` exactly when the relation holds at every
index of the window. -/
theorem domLoop_spec (rel : Int → Int → Bool) (a b : Tensor Int) :
    ∀ (fuel i : Nat),
      domLoop rel a b i fuel = true ↔
        ∀ j, i ≤ j → j < i + fuel →
          rel (a.m_data.getD j 0) (b.m_data.getD j 0) = true := by
  intro fuel
  induction fuel with
  | zero =>
    intro i
    constructor
    · intro _ j h1 h2
      omega
    · intro _
      rfl
  | succ fuel ih =>
    intro i
    rw [show domLoop rel a b i (fuel + 1) =
        (if rel (a.m_data.getD i default) (b.m_data.getD i default) then
          domLoop rel a b (i + 1) fuel else false) from rfl]
    by_cases hrel : rel (a.m_data.getD i default) (b.m_data.getD i default) = true
    · rw [if_pos hrel, ih (i + 1)]
      rw [int_default] at hrel
      constructor
      · intro h j h1 h2
        rcases Nat.eq_or_lt_of_le h1 with rfl | hlt
        · exact hrel
        · exact h j hlt (by omega)
      · intro h j h1 h2
        exact h j (by omega) (by omega)
    · rw [if_neg (by simpa using hrel)]
      rw [int_default] at hrel
      constructor
      · intro h
        exact absurd h (by simp)
      · intro h
        exact absurd (h i (le_refl i) (by omega)) hrel

/-! ### Claim C5 -/

/-- Claim C5: division by zero always fails with a domain error and yields
no partial result.  For tensor/tensor division on same-shape operands, a
zero anywhere in the divisor aborts the whole operation with
`domain_error` (the per-element check runs before the element's division,
short-circuiting at the first zero in flat order; only the up-front copy of
the left operand is ever mutated, so both operands are untouched — the
embedding is pure because of that copy, core.hpp:374).  For tensor/scalar
division, a zero scalar raises the domain error before the loop starts.
With no zero divisor, every result element is the quotient of the
corresponding operands. -/
theorem C5_division_by_zero (a b : Tensor Int) (v : Int)
    (hs : a.m_size = b.m_size) (hu : a.m_size < U64)
    (hla : a.m_data.length = a.m_size) :
    ((∃ j, j < a.m_size ∧ b.m_data.getD j 0 = 0) →
      a.div b = .error .domainError) ∧
    ((∀ j, j < a.m_size → b.m_data.getD j 0 ≠ 0) →
      ∃ r, a.div b = .ok r ∧ r.m_extents = a.m_extents ∧
        r.m_size = a.m_size ∧
        ∀ j, j < a.m_size →
          r.m_data.getD j 0 = a.m_data.getD j 0 / b.m_data.getD j 0) ∧
    (v = 0 → a.divScalar v = .error .domainError) ∧
    (v ≠ 0 → ∃ r, a.divScalar v = .ok r ∧ r.m_extents = a.m_extents ∧
      r.m_size = a.m_size ∧
      ∀ j, j < a.m_size →
        r.m_data.getD j 0 = a.m_data.getD j 0 / v) := by
  refine ⟨?_, ?_, ?_, ?_⟩
  · intro ⟨j, hj, hz⟩
    exact divLoop_err b a.m_size 0 a (by omega) (by omega) hu (by omega) hla
      ⟨j, by omega, by omega, hz⟩
  · intro hnz
    obtain ⟨r, hr, he, hsz, hst, hl, hget⟩ :=
      divLoop_ok b a.m_size 0 a (by omega) (by omega) hu (by omega) hla
        (fun j _ hj => hnz j (by omega))
    exact ⟨r, hr, he, hsz, fun j hj => by
      rw [hget j, if_pos ⟨Nat.zero_le j, by omega⟩]⟩
  · intro hv
    simp [Tensor.divScalar, hv]
  · intro hv
    unfold Tensor.divScalar
    rw [if_neg hv]
    obtain ⟨r, hr, he, hsz, hst, hl, hget⟩ :=
      scalarLoop_spec (fun x => x / v) a.m_size 0 a (by omega) hu hla
    exact ⟨r, hr, he, hsz, fun j hj => by
      rw [hget j, if_pos ⟨Nat.zero_le j, by omega⟩]⟩

/-- Witness for `C5_division_by_zero`: `{6, 8} / {2, 0}` aborts with the
domain error, `{6, 8} / {2, 4}` succeeds element-wise, scalar division by
`0` fails and by `2` succeeds. -/
theorem C5_division_by_zero_witness :
    Tensor.div (listCtor Int 1 [6, 8]) (listCtor Int 1 [2, 0]) =
      .error .domainError ∧
    (∃ r, Tensor.div (listCtor Int 1 [6, 8]) (listCtor Int 1 [2, 4]) =
        .ok r ∧
      r.m_extents = (listCtor Int 1 [6, 8]).m_extents ∧
      r.m_size = (listCtor Int 1 [6, 8]).m_size ∧
      ∀ j, j < (listCtor Int 1 [6, 8]).m_size →
        r.m_data.getD j 0 =
          (listCtor Int 1 [6, 8]).m_data.getD j 0 /
            (listCtor Int 1 [2, 4]).m_data.getD j 0) ∧
    Tensor.divScalar (listCtor Int 1 [6, 8]) 0 = .error .domainError ∧
    (∃ r, Tensor.divScalar (listCtor Int 1 [6, 8]) 2 = .ok r ∧
      r.m_extents = (listCtor Int 1 [6, 8]).m_extents ∧
      r.m_size = (listCtor Int 1 [6, 8]).m_size ∧
      ∀ j, j < (listCtor Int 1 [6, 8]).m_size →
        r.m_data.getD j 0 = (listCtor Int 1 [6, 8]).m_data.getD j 0 / 2) :=
  ⟨(C5_division_by_zero (listCtor Int 1 [6, 8]) (listCtor Int 1 [2, 0]) 0
      (by decide) (by decide) (by decide)).1 ⟨1, by decide, by decide⟩,
   (C5_division_by_zero (listCtor Int 1 [6, 8]) (listCtor Int 1 [2, 4]) 0
      (by decide) (by decide) (by decide)).2.1 (by decide),
   (C5_division_by_zero (listCtor Int 1 [6, 8]) (listCtor Int 1 [2, 4]) 0
      (by decide) (by decide) (by decide)).2.2.1 rfl,
   (C5_division_by_zero (listCtor Int 1 [6, 8]) (listCtor Int 1 [2, 4]) 2
      (by decide) (by decide) (by decide)).2.2.2 (by decide)⟩

/-! ### Claim C6 -/

/-- Claim C6, refuted as stated: on the tensors `{{1, 2}}` (extents
`{1, 2}`) and `{{3}, {4}}` (extents `{2, 1}`) — equal sizes, different
extents — all four arithmetic operators return a result instead of failing:
no shape or size check of any kind precedes their loops. -/
theorem C6_counterexample :
    Tensor.add ⟨[1, 2], [1, 2], 2, [2, 1]⟩ ⟨[3, 4], [2, 1], 2, [1, 1]⟩ =
      .ok ⟨[4, 6], [1, 2], 2, [2, 1]⟩ ∧
    Tensor.sub ⟨[1, 2], [1, 2], 2, [2, 1]⟩ ⟨[3, 4], [2, 1], 2, [1, 1]⟩ =
      .ok ⟨[-2, -2], [1, 2], 2, [2, 1]⟩ ∧
    Tensor.mul ⟨[1, 2], [1, 2], 2, [2, 1]⟩ ⟨[3, 4], [2, 1], 2, [1, 1]⟩ =
      .ok ⟨[3, 8], [1, 2], 2, [2, 1]⟩ ∧
    Tensor.div ⟨[1, 2], [1, 2], 2, [2, 1]⟩ ⟨[3, 4], [2, 1], 2, [1, 1]⟩ =
      .ok ⟨[0, 0], [1, 2], 2, [2, 1]⟩ ∧
    ([1, 2] : List Nat) ≠ [2, 1] := by
  refine ⟨?_, ?_, ?_, ?_, ?_⟩ <;> decide

/-- Claim C6, as amended: the tensor-tensor arithmetic operators perform no
extents (or size) check at all.  With differing extents, as long as every
index below the left operand's size is in bounds for the right operand (and,
for division, hits no zero divisor there), each operator succeeds and
returns a tensor shaped like the left operand. -/
theorem C6_no_shape_check (a b : Tensor Int)
    (_he : a.m_extents ≠ b.m_extents)
    (hs : a.m_size ≤ b.m_size) (hu : b.m_size < U64)
    (hla : a.m_data.length = a.m_size) :
    (∃ r, a.add b = .ok r ∧ r.m_extents = a.m_extents) ∧
    (∃ r, a.sub b = .ok r ∧ r.m_extents = a.m_extents) ∧
    (∃ r, a.mul b = .ok r ∧ r.m_extents = a.m_extents) ∧
    ((∀ j, j < a.m_size → b.m_data.getD j 0 ≠ 0) →
      ∃ r, a.div b = .ok r ∧ r.m_extents = a.m_extents) := by
  refine ⟨?_, ?_, ?_, ?_⟩
  · obtain ⟨r, hr, he2, _⟩ :=
      binopLoop_spec (fun x y => x + y) b a.m_size 0 a (by omega) hs
        (by omega) hu hla
    exact ⟨r, hr, he2⟩
  · obtain ⟨r, hr, he2, _⟩ :=
      binopLoop_spec (fun x y => x - y) b a.m_size 0 a (by omega) hs
        (by omega) hu hla
    exact ⟨r, hr, he2⟩
  · obtain ⟨r, hr, he2, _⟩ :=
      binopLoop_spec (fun x y => x * y) b a.m_size 0 a (by omega) hs
        (by omega) hu hla
    exact ⟨r, hr, he2⟩
  · intro hnz
    obtain ⟨r, hr, he2, _⟩ :=
      divLoop_ok b a.m_size 0 a (by omega) hs (by omega) hu hla
        (fun j _ hj => hnz j (by omega))
    exact ⟨r, hr, he2⟩

/-- Witness for `C6_no_shape_check` at the zero-vs-shape pair used above:
extents `{1, 2}` against `{2, 1}`. -/
theorem C6_no_shape_check_witness :
    (∃ r, Tensor.add ⟨[1, 2], [1, 2], 2, [2, 1]⟩ ⟨[3, 4], [2, 1], 2, [1, 1]⟩ =
        .ok r ∧ r.m_extents = [1, 2]) ∧
    (∃ r, Tensor.sub ⟨[1, 2], [1, 2], 2, [2, 1]⟩ ⟨[3, 4], [2, 1], 2, [1, 1]⟩ =
        .ok r ∧ r.m_extents = [1, 2]) ∧
    (∃ r, Tensor.mul ⟨[1, 2], [1, 2], 2, [2, 1]⟩ ⟨[3, 4], [2, 1], 2, [1, 1]⟩ =
        .ok r ∧ r.m_extents = [1, 2]) ∧
    (∃ r, Tensor.div ⟨[1, 2], [1, 2], 2, [2, 1]⟩ ⟨[3, 4], [2, 1], 2, [1, 1]⟩ =
        .ok r ∧ r.m_extents = [1, 2]) := by
  have h := C6_no_shape_check ⟨[1, 2], [1, 2], 2, [2, 1]⟩
    ⟨[3, 4], [2, 1], 2, [1, 1]⟩ (by decide) (by decide) (by decide) (by decide)
  exact ⟨h.1, h.2.1, h.2.2.1, h.2.2.2 (by decide)⟩

/-! ### Claim C8 -/

/-- Claim C8: for same-shape operands `operator>` is the element-wise
dominance relation — `.ok true` exactly when every left element strictly
exceeds the corresponding right element — and in particular it is not a
total order: for the rank-1 tensors `{1, 5}` and `{5, 1}` both directions
return `.ok false`. -/
theorem C8_dominance (a b : Tensor Int) (hs : a.m_size = b.m_size)
    (he : a.m_extents = b.m_extents) :
    (a.gt b = .ok true ↔
      ∀ j, j < a.m_size → b.m_data.getD j 0 < a.m_data.getD j 0) ∧
    Tensor.gt (listCtor Int 1 [1, 5]) (listCtor Int 1 [5, 1]) = .ok false ∧
    Tensor.gt (listCtor Int 1 [5, 1]) (listCtor Int 1 [1, 5]) = .ok false := by
  refine ⟨?_, by decide, by decide⟩
  unfold Tensor.gt
  rw [if_neg (by omega), if_neg (by simp [he])]
  have hiff := domLoop_spec (fun x y => decide (y < x)) a b a.m_size 0
  simp only [decide_eq_true_eq] at hiff
  constructor
  · intro h j hj
    have h2 : domLoop (fun x y => decide (y < x)) a b 0 a.m_size = true := by
      injection h
    exact hiff.mp h2 j (Nat.zero_le j) (by omega)
  · intro h
    have h2 := hiff.mpr fun j _ hj2 => h j (by omega)
    rw [h2]

/-- Witness for `C8_dominance` at `{7, 9}` vs `{5, 1}` (same shape):
dominance holds element-wise, and the two fixed non-total pairs evaluate to
`.ok false` both ways. -/
theorem C8_dominance_witness :
    (Tensor.gt (listCtor Int 1 [7, 9]) (listCtor Int 1 [5, 1]) = .ok true ↔
      ∀ j, j < (listCtor Int 1 [7, 9]).m_size →
        (listCtor Int 1 [5, 1]).m_data.getD j 0 <
          (listCtor Int 1 [7, 9]).m_data.getD j 0) ∧
    Tensor.gt (listCtor Int 1 [1, 5]) (listCtor Int 1 [5, 1]) = .ok false ∧
    Tensor.gt (listCtor Int 1 [5, 1]) (listCtor Int 1 [1, 5]) = .ok false :=
  C8_dominance (listCtor Int 1 [7, 9]) (listCtor Int 1 [5, 1])
    (by decide) (by decide)

/-! ### Claim C10 -/

/-- The exact weighted sum `Σ idxs[j] * strides[j]` the spec describes. -/
def dot (strides idxs : List Nat) : Nat :=
  (idxs.zipWith (fun i s => i * s) strides).sum

theorem flatOffset_aux :
    ∀ (idxs strides : List Nat) (acc : Nat),
      acc + dot strides idxs < U64 →
      (idxs.zipWith (fun i s => i * s % U64) strides).foldl
          (fun acc p => (acc + p) % U64) acc =
        acc + dot strides idxs := by
  intro idxs
  induction idxs with
  | nil =>
    intro strides acc _
    simp [dot]
  | cons i is ih =>
    intro strides acc h
    cases strides with
    | nil => simp [dot]
    | cons st sts =>
      have hdot : dot (st :: sts) (i :: is) = i * st + dot sts is := by
        simp [dot]
      rw [hdot] at h
      have h1 : i * st % U64 = i * st := Nat.mod_eq_of_lt (by omega)
      have h2 : (acc + i * st) % U64 = acc + i * st :=
        Nat.mod_eq_of_lt (by omega)
      simp only [List.zipWith_cons_cons, List.foldl_cons, h1, h2]
      rw [ih sts (acc + i * st) (by omega), hdot]
      omega

/-- While the exact weighted sum stays below `2^64`, the wrapping flat
offset of `get` agrees with it. -/
theorem flatOffset_eq_dot (strides idxs : List Nat)
    (h : dot strides idxs < U64) :
    flatOffset strides idxs = dot strides idxs := by
  have := flatOffset_aux idxs strides 0 (by omega)
  simpa [flatOffset] using this

/-- Claim C10: `get<U>` performs no bounds check on its indices — for every
index list (in range or not) it raises no out-of-range error and returns
the raw buffer read at the flat offset `Σ idxs[j] * strides[j]`; on the
rank-1 tensor `{10, 20}` the out-of-range multi-index `{5}` is answered
with the (undefined) buffer read while the checked flat `operator[]`
rejects the same index. -/
theorem C10_get_unchecked (t : Tensor Int) (idxs : List Nat)
    (h : dot t.m_strides idxs < U64) :
    t.get idxs = t.m_data.getD (dot t.m_strides idxs) 0 ∧
    Tensor.get (listCtor Int 1 [10, 20]) [5] = 0 ∧
    Tensor.idx (listCtor Int 1 [10, 20]) 5 = .error .outOfRange := by
  refine ⟨?_, by decide, by decide⟩
  unfold Tensor.get
  rw [flatOffset_eq_dot t.m_strides idxs h, int_default]

/-- Witness for `C10_get_unchecked` at the rank-1 tensor `{10, 20}` and the
out-of-range index list `{5}`. -/
theorem C10_get_unchecked_witness :
    Tensor.get (listCtor Int 1 [10, 20]) [5] =
      (listCtor Int 1 [10, 20]).m_data.getD
        (dot (listCtor Int 1 [10, 20]).m_strides [5]) 0 ∧
    Tensor.get (listCtor Int 1 [10, 20]) [5] = 0 ∧
    Tensor.idx (listCtor Int 1 [10, 20]) 5 = .error .outOfRange :=
  C10_get_unchecked (listCtor Int 1 [10, 20]) [5] (by decide)

/-! ### Claim C9 -/

/-- `2^(⌊log2 n⌋) ≤ n` for the fueled log (auxiliary bound). -/
theorem natLog2_go_le : ∀ (fuel n : Nat), n ≤ fuel → 1 ≤ n →
    2 ^ natLog2.go fuel n ≤ n := by
  intro fuel
  induction fuel with
  | zero =>
    intro n h1 h2
    omega
  | succ fuel ih =>
    intro n h1 h2
    unfold natLog2.go
    by_cases h : 2 ≤ n
    · rw [if_pos h, pow_succ]
      have hd : 1 ≤ n / 2 := by omega
      have hfit : n / 2 ≤ fuel := by omega
      have := ih (n / 2) hfit hd
      calc 2 ^ natLog2.go fuel (n / 2) * 2 ≤ n / 2 * 2 :=
            Nat.mul_le_mul_right 2 this
        _ ≤ n := by omega
    · rw [if_neg h]
      simpa using h2

theorem natLog2_le (n : Nat) (h : 1 ≤ n) : 2 ^ natLog2 n ≤ n :=
  natLog2_go_le n n (le_refl n) h

/-- Round-to-nearest never falls below the truncated quotient. -/
theorem roundNearEven_ge_div (a b : Nat) : a / b ≤ roundNearEven a b := by
  simp only [roundNearEven]
  split
  · exact le_refl _
  · split
    · omega
    · split <;> omega

theorem roundNearEven_one (a : Nat) : roundNearEven a 1 = a := by
  simp only [roundNearEven, Nat.mod_one, Nat.div_one]
  norm_num

/-- Converting a positive `size_type` value to `float` yields a positive
value (its mantissa is nonzero), so it is a usable divisor. -/
theorem f32ofNat_pos (e : Nat) (he : 0 < e) : 0 < (f32ofNat e).m := by
  by_cases hsmall : e ≤ F24
  · rw [f32ofNat_small e hsmall]
    exact he
  · have hlog : ratLog2 e 1 = (natLog2 e : Int) := by
      unfold ratLog2
      have h1 : natLog2 1 = 0 := rfl
      simp only [h1, Nat.cast_zero, sub_zero, if_pos (Int.natCast_nonneg _)]
      rw [if_pos]
      simp only [Int.toNat_natCast, one_mul]
      exact decide_eq_true_eq.mpr (natLog2_le e he)
    unfold f32ofNat roundF
    rw [if_neg (by omega), if_neg (by simp [Nat.div_one]; omega)]
    simp only [hlog]
    by_cases hs : (0 : Int) ≤ 23 - (natLog2 e : Int)
    · rw [if_pos hs]
      simp only [roundNearEven_one]
      positivity
    · rw [if_neg hs]
      simp only []
      have hp : 2 ^ ((-(23 - (natLog2 e : Int))).toNat) ≤ e := by
        have h24 : (-(23 - (natLog2 e : Int))).toNat = natLog2 e - 23 := by
          omega
        rw [h24]
        calc 2 ^ (natLog2 e - 23) ≤ 2 ^ natLog2 e :=
              Nat.pow_le_pow_right (by omega) (by omega)
          _ ≤ e := natLog2_le e he
      have h1 : 1 ≤ e / (1 * 2 ^ ((-(23 - (natLog2 e : Int))).toNat)) := by
        rw [one_mul]
        exact (Nat.one_le_div_iff (Nat.pos_pow_of_pos _ (by omega))).mpr hp
      calc 0 < e / (1 * 2 ^ ((-(23 - (natLog2 e : Int))).toNat)) := h1
        _ ≤ roundNearEven e (1 * 2 ^ ((-(23 - (natLog2 e : Int))).toNat)) :=
            roundNearEven_ge_div _ _

/-- With every extent positive, the `float` stride loop never divides by a
zero `float` and so always produces a stride array (no undefined cast). -/
theorem stridesLoop_some : ∀ (l : List Nat) (p : F32), (∀ e ∈ l, 0 < e) →
    ∃ res, stridesLoop p l = some res := by
  intro l
  induction l with
  | nil =>
    intro p _
    exact ⟨[], rfl⟩
  | cons e rest ih =>
    intro p hpos
    have hm : (f32ofNat e).m ≠ 0 :=
      Nat.pos_iff_ne_zero.mp (f32ofNat_pos e (hpos e (by simp)))
    obtain ⟨res, hres⟩ := ih ⟨(roundF p.m (f32ofNat e).m).m,
      (roundF p.m (f32ofNat e).m).e + p.e - (f32ofNat e).e⟩
      (fun x hx => hpos x (by simp [hx]))
    refine ⟨f32toSizeType ⟨(roundF p.m (f32ofNat e).m).m,
      (roundF p.m (f32ofNat e).m).e + p.e - (f32ofNat e).e⟩ :: res, ?_⟩
    unfold stridesLoop f32div
    rw [if_neg hm]
    simp only [hres]

/-- While the accumulated size is positive and every remaining child has
the reference size, the validation pass succeeds, accumulating the sizes
and keeping the extents. -/
theorem nestedPass_ok (k : Nat) :
    ∀ (cs : List (Tensor Int)) (size check : Nat) (ext : List Nat),
      0 < size → (∀ t ∈ cs, t.m_size = check) →
      nestedPass k size check ext cs =
        .ok (size + (cs.map Tensor.m_size).sum, ext) := by
  intro cs
  induction cs with
  | nil =>
    intro size check ext _ _
    simp [nestedPass]
  | cons t rest ih =>
    intro size check ext hpos hall
    have ht : t.m_size = check := hall t (by simp)
    unfold nestedPass
    rw [if_neg (by omega), if_neg (by omega)]
    rw [ih (size + t.m_size) check ext (by omega)
      (fun x hx => hall x (by simp [hx]))]
    simp only [List.map_cons, List.sum_cons]
    rw [Nat.add_assoc]

/-- Once the accumulated size is positive, any later child whose SIZE
differs from the reference aborts the constructor with the
dimension-mismatch error. -/
theorem nestedPass_err (k : Nat) :
    ∀ (cs : List (Tensor Int)) (size check : Nat) (ext : List Nat),
      0 < size → (∃ t ∈ cs, t.m_size ≠ check) →
      nestedPass k size check ext cs = .error .dimMismatch := by
  intro cs
  induction cs with
  | nil =>
    intro size check ext _ hex
    obtain ⟨t, ht, _⟩ := hex
    simp at ht
  | cons t rest ih =>
    intro size check ext hpos hex
    unfold nestedPass
    rw [if_neg (by omega)]
    by_cases ht : t.m_size = check
    · rw [if_neg (by omega)]
      obtain ⟨u, hu, hne⟩ := hex
      rcases List.mem_cons.mp hu with rfl | hu2
      · exact absurd ht hne
      · exact ih (size + t.m_size) check ext (by omega) ⟨u, hu2, hne⟩
    · rw [if_pos (by omega)]

/-- Reading a whole list back index-by-index reproduces it. -/
theorem range_map_getD {α : Type} (l : List α) (d : α) :
    (List.range l.length).map (fun i => l.getD i d) = l := by
  apply List.ext_getElem
  · simp
  · intro i h1 h2
    simp only [List.getElem_map, List.getElem_range]
    exact List.getD_eq_getElem l d h2

/-- When every child's buffer length equals its size, the concatenation
pass produces exactly the children's buffers joined in order. -/
theorem nestedData_flatten (cs : List (Tensor Int))
    (h : ∀ t ∈ cs, t.m_data.length = t.m_size) :
    nestedData cs = (cs.map Tensor.m_data).flatten := by
  induction cs with
  | nil => rfl
  | cons t rest ih =>
    have ht : t.m_data.length = t.m_size := h t (by simp)
    unfold nestedData
    simp only [List.flatMap_cons, List.map_cons, List.flatten_cons]
    rw [← ht, range_map_getD t.m_data default]
    exact congrArg (t.m_data ++ ·) (ih (fun x hx => h x (by simp [hx])))

/-- Claim C9, refuted as stated: the children `⟨extents {1, 2}⟩` and
`⟨extents {2, 1}⟩` have different extents but the same size `2`, and the
nested-list constructor accepts them (its check at core.hpp:95 compares
`t.size()` only), producing extents `{2, 1}` — the leading `2` plus the
FIRST child extent only, the child's last extent landing past the end of
the parent array — with the two buffers concatenated. -/
theorem C9_counterexample :
    nestedCtor [⟨[1, 2], [1, 2], 2, [2, 1]⟩, ⟨[3, 4], [2, 1], 2, [1, 1]⟩] =
      .ok ⟨[1, 2, 3, 4], [2, 1], 4, [2, 2]⟩ ∧
    ([1, 2] : List Nat) ≠ [2, 1] := by
  constructor
  · decide
  · decide

/-- Claim C9, as amended: the nested-list constructor validates only the
children's SIZES.  With a positive-size first child, any later child of a
different size fails with the dimension-mismatch error (children of equal
sizes but different extents are accepted).  When all children share the
same positive size (and the first child's leading extents are positive, so
the stride loop's divisors are nonzero), construction succeeds with leading
extent the number of children, the next extents the FIRST child's leading
`Order - 1` extents, and the buffer the children's buffers concatenated in
order. -/
theorem C9_nested_ctor (c : Tensor Int) (cs : List (Tensor Int))
    (hpos : 0 < c.m_size) :
    ((∃ t ∈ cs, t.m_size ≠ c.m_size) →
      nestedCtor (c :: cs) = .error .dimMismatch) ∧
    ((∀ t ∈ cs, t.m_size = c.m_size) →
      (∀ t ∈ c :: cs, t.m_data.length = t.m_size) →
      (∀ x ∈ c.m_extents.take (c.m_extents.length - 1), 0 < x) →
      ∃ r, nestedCtor (c :: cs) = .ok r ∧
        r.m_extents =
          (c :: cs).length :: c.m_extents.take (c.m_extents.length - 1) ∧
        r.m_data = ((c :: cs).map Tensor.m_data).flatten) := by
  have hstep : ∀ rest : List (Tensor Int),
      nestedPass (c :: cs).length 0 0 [] (c :: rest) =
        nestedPass (c :: cs).length (0 + c.m_size) c.m_size
          ((c :: cs).length :: c.m_extents.take (c.m_extents.length - 1))
          rest :=
    fun rest => rfl
  constructor
  · intro hex
    unfold nestedCtor
    rw [hstep cs, nestedPass_err (c :: cs).length cs (0 + c.m_size) c.m_size _
      (by omega) hex]
    rfl
  · intro hall hlen hext
    have hpass : nestedPass (c :: cs).length 0 0 [] (c :: cs) =
        .ok (0 + c.m_size + (cs.map Tensor.m_size).sum,
          (c :: cs).length :: c.m_extents.take (c.m_extents.length - 1)) := by
      rw [hstep cs]
      exact nestedPass_ok (c :: cs).length cs (0 + c.m_size) c.m_size _
        (by omega) hall
    have hexts : ∀ x ∈ (c :: cs).length ::
        c.m_extents.take (c.m_extents.length - 1), 0 < x := by
      intro x hx
      rcases List.mem_cons.mp hx with rfl | hx2
      · simp
      · exact hext x hx2
    obtain ⟨strides, hstrides⟩ := stridesLoop_some _
      (f32ofNat (0 + c.m_size + (cs.map Tensor.m_size).sum)) hexts
    refine ⟨⟨nestedData (c :: cs),
      (c :: cs).length :: c.m_extents.take (c.m_extents.length - 1),
      0 + c.m_size + (cs.map Tensor.m_size).sum, strides⟩, ?_, rfl,
      nestedData_flatten (c :: cs) hlen⟩
    unfold nestedCtor
    rw [hpass]
    simp only [okBind]
    rw [hstrides]

/-- Witness for `C9_nested_ctor`: three rank-1-style children — sizes
`2, 2, 2` succeed with leading extent `3` and concatenated buffers, while
replacing the last child by one of size `3` fails with the
dimension-mismatch error. -/
theorem C9_nested_ctor_witness :
    nestedCtor [listCtor Int 2 [1, 2], listCtor Int 2 [3, 4],
        listCtor Int 2 [5, 6, 7]] = .error .dimMismatch ∧
    (∃ r, nestedCtor [listCtor Int 2 [1, 2], listCtor Int 2 [3, 4],
        listCtor Int 2 [5, 6]] = .ok r ∧
      r.m_extents = [3, 2] ∧
      r.m_data = [1, 2, 3, 4, 5, 6]) := by
  constructor
  · exact (C9_nested_ctor (listCtor Int 2 [1, 2])
      [listCtor Int 2 [3, 4], listCtor Int 2 [5, 6, 7]] (by decide)).1
      ⟨listCtor Int 2 [5, 6, 7], by decide, by decide⟩
  · obtain ⟨r, hr, he, hd⟩ := (C9_nested_ctor (listCtor Int 2 [1, 2])
      [listCtor Int 2 [3, 4], listCtor Int 2 [5, 6]] (by decide)).2
      (by decide) (by decide) (by decide)
    exact ⟨r, hr, by simpa using he, by simpa using hd⟩

/-! ### Claim C3 -/

theorem wrap32_eq (x : Int) (h1 : -(2 ^ 31) ≤ x) (h2 : x < 2 ^ 31) :
    wrap32 x = x := by
  unfold wrap32
  rw [Int.emod_eq_of_lt (by omega) (by omega)]
  omega

/-- In range — every extent positive, product below `2^31` — the `int`
block-size product is the exact product. -/
theorem blockSizeInt_aux :
    ∀ (l : List Nat) (a : Int), 1 ≤ a → (∀ e ∈ l, 0 < e) →
      a * ((l.prod : Nat) : Int) < 2 ^ 31 →
      l.foldl (fun (a : Int) (e : Nat) => wrap32 (a * wrap32 (e : Int))) a =
        a * ((l.prod : Nat) : Int) := by
  intro l
  induction l with
  | nil =>
    intro a _ _ _
    simp
  | cons e rest ih =>
    intro a ha hpos h
    have hre : ((List.prod (e :: rest) : Nat) : Int) =
        (e : Int) * ((rest.prod : Nat) : Int) := by
      push_cast [List.prod_cons]
      ring
    rw [hre] at h
    have he : (0 : Int) < (e : Int) := by
      exact_mod_cast hpos e (by simp)
    have hrp : (1 : Int) ≤ ((rest.prod : Nat) : Int) := by
      exact_mod_cast List.prod_pos fun x hx => hpos x (by simp [hx])
    have hae : a * (e : Int) ≤ a * (e : Int) * ((rest.prod : Nat) : Int) :=
      le_mul_of_one_le_right (by positivity) hrp
    have hbound : a * (e : Int) * ((rest.prod : Nat) : Int) < 2 ^ 31 := by
      calc a * (e : Int) * ((rest.prod : Nat) : Int)
          = a * ((e : Int) * ((rest.prod : Nat) : Int)) := by ring
        _ < 2 ^ 31 := h
    have hwe : wrap32 (e : Int) = (e : Int) := by
      apply wrap32_eq
      · omega
      · have h1 : (e : Int) ≤ a * (e : Int) :=
          le_mul_of_one_le_left (by positivity) ha
        omega
    have hae0 : (1 : Int) ≤ a * (e : Int) := by nlinarith
    have hwae : wrap32 (a * (e : Int)) = a * (e : Int) := by
      apply wrap32_eq
      · omega
      · omega
    simp only [List.foldl_cons, hwe, hwae]
    rw [ih (a * (e : Int)) hae0
      (fun x hx => hpos x (by simp [hx])) hbound]
    rw [hre]
    ring

theorem blockSizeInt_exact (l : List Nat) (hpos : ∀ e ∈ l, 0 < e)
    (hsmall : l.prod ≤ F24) : blockSizeInt l = ((l.prod : Nat) : Int) := by
  have h : (1 : Int) * ((l.prod : Nat) : Int) < 2 ^ 31 := by
    have : (l.prod : Int) ≤ (F24 : Int) := by exact_mod_cast hsmall
    have h24 : ((F24 : Nat) : Int) < 2 ^ 31 := by decide
    omega
  have := blockSizeInt_aux l 1 (le_refl 1) hpos h
  simpa [blockSizeInt] using this

/-- The copy loop of `get<U>` (source window `[flat, flat + fuel)` written
to result positions `[k, k + fuel)`). -/
theorem copyLoop_spec {α : Type} [Inhabited α] (src : List α) (flat : Nat) :
    ∀ (fuel k : Nat) (res : Tensor α),
      k + fuel ≤ res.m_size → res.m_size < U64 →
      res.m_data.length = res.m_size →
      ∃ r : Tensor α, copyLoop src flat (flat + k) fuel res = .ok r ∧
        r.m_extents = res.m_extents ∧ r.m_size = res.m_size ∧
        r.m_strides = res.m_strides ∧ r.m_data.length = res.m_data.length ∧
        ∀ j : Nat, r.m_data.getD j default =
          if k ≤ j ∧ j < k + fuel then src.getD (flat + j) default
          else res.m_data.getD j default := by
  intro fuel
  induction fuel with
  | zero =>
    intro k res _ _ _
    exact ⟨res, rfl, rfl, rfl, rfl, rfl, fun j => by
      rw [if_neg (by omega)]⟩
  | succ fuel ih =>
    intro k res hfit hru hlen
    have hk : k < res.m_size := by omega
    have step : copyLoop src flat (flat + k) (fuel + 1) res =
        copyLoop src flat (flat + (k + 1)) fuel
          ⟨res.m_data.set k (src.getD (flat + k) default),
           res.m_extents, res.m_size, res.m_strides⟩ := by
      simp only [copyLoop, Nat.add_sub_cancel_left,
        setIdx_ok res k _ hk hru, okBind, Nat.add_assoc]
    obtain ⟨r, hr, he2, hs2, hst2, hl2, hget⟩ :=
      ih (k + 1)
        ⟨res.m_data.set k (src.getD (flat + k) default),
         res.m_extents, res.m_size, res.m_strides⟩
        (by dsimp only; omega) (by dsimp only; omega)
        (by dsimp only; rw [List.length_set]; omega)
    refine ⟨r, step.trans hr, he2, hs2, hst2,
      by rw [hl2]; dsimp only; rw [List.length_set], fun j => ?_⟩
    rw [hget j]
    dsimp only
    by_cases hj : k + 1 ≤ j ∧ j < k + 1 + fuel
    · rw [if_pos hj, if_pos (by omega)]
    · rw [if_neg hj]
      by_cases hjk : j = k
      · subst hjk
        rw [getD_set, if_pos ⟨rfl, by omega⟩, if_pos (by omega)]
      · rw [getD_set, if_neg (by omega), if_neg (by omega)]

/-- Row-major bound: a full in-range multi-index addressed through the
trailing-product strides stays below the total element count. -/
theorem dot_lt : ∀ (ext idxs : List Nat), idxs.length = ext.length →
    (∀ j, j < idxs.length → idxs.getD j 0 < ext.getD j 0) →
    dot (trailingStrides ext) idxs < ext.prod := by
  intro ext
  induction ext with
  | nil =>
    intro idxs hlen _
    rw [List.length_nil, List.length_eq_zero] at hlen
    subst hlen
    simp [dot, trailingStrides]
  | cons e es ih =>
    intro idxs hlen hin
    cases idxs with
    | nil => simp at hlen
    | cons i is =>
      have h0 : i < e := by
        have := hin 0 (by simp)
        simpa using this
      have hlen2 : is.length = es.length := by simpa using hlen
      have hin2 : ∀ j, j < is.length → is.getD j 0 < es.getD j 0 := by
        intro j hj
        have := hin (j + 1) (by simpa using Nat.succ_lt_succ hj)
        simpa using this
      have hd : dot (trailingStrides (e :: es)) (i :: is) =
          i * es.prod + dot (trailingStrides es) is := by
        simp [dot, trailingStrides]
      rw [hd, List.prod_cons]
      have hih := ih is hlen2 hin2
      calc i * es.prod + dot (trailingStrides es) is
          < i * es.prod + es.prod := by omega
        _ = (i + 1) * es.prod := by ring
        _ ≤ e * es.prod := Nat.mul_le_mul_right es.prod (by omega)

/-- Splitting a multi-index into a prefix and a suffix splits the weighted
sum: the suffix indexes the dropped extents through their own
trailing-product strides. -/
theorem dot_append : ∀ (pre : List Nat) (ext suf : List Nat),
    pre.length ≤ ext.length →
    dot (trailingStrides ext) (pre ++ suf) =
      dot (trailingStrides ext) pre +
        dot (trailingStrides (ext.drop pre.length)) suf := by
  intro pre
  induction pre with
  | nil =>
    intro ext suf _
    simp [dot]
  | cons p ps ih =>
    intro ext suf hlen
    cases ext with
    | nil => simp at hlen
    | cons e es =>
      have h1 : dot (trailingStrides (e :: es)) ((p :: ps) ++ suf) =
          p * es.prod + dot (trailingStrides es) (ps ++ suf) := by
        simp [dot, trailingStrides]
      have h2 : dot (trailingStrides (e :: es)) (p :: ps) =
          p * es.prod + dot (trailingStrides es) ps := by
        simp [dot, trailingStrides]
      rw [h1, h2, ih es suf (by simpa using hlen)]
      simp only [List.length_cons, List.drop_succ_cons]
      omega

/-- Reading the dropped extents list is reading the original at the shifted
position. -/
theorem getD_drop (l : List Nat) (n m : Nat) (h : m < l.length - n) :
    (l.drop n).getD m 0 = l.getD (n + m) 0 := by
  have h1 : m < (l.drop n).length := by
    rw [List.length_drop]
    omega
  have h2 : n + m < l.length := by omega
  rw [List.getD_eq_getElem _ _ h1, List.getD_eq_getElem _ _ h2]
  exact List.getElem_drop l

/-- Claim C3, refuted as stated: the (invariant-satisfying) rank-2 tensor
state with extents `{2, 0}`, size `0` and row-major strides `{0, 1}`,
indexed by the in-range prefix `{0}` (`0 < 2`), does not produce the
rank-1 sub-tensor of extents `{0}` and size `0` the claim demands: the
sub-tensor constructor runs the `float` stride loop on the trailing
extents `{0}`, divides `0.0f` by `0.0f` and casts the resulting `NaN` to
`size_type` — undefined behaviour instead of a tensor. -/
theorem C3_counterexample :
    (⟨[], [2, 0], 0, [0, 1]⟩ : Tensor Int).m_strides =
      trailingStrides [2, 0] ∧
    (⟨[], [2, 0], 0, [0, 1]⟩ : Tensor Int).m_size =
      ([2, 0] : List Nat).prod ∧
    ([0] : List Nat).getD 0 0 < ([2, 0] : List Nat).getD 0 0 ∧
    Tensor.getSub (⟨[], [2, 0], 0, [0, 1]⟩ : Tensor Int) [0] =
      .error .undefined := by
  refine ⟨?_, ?_, ?_, ?_⟩ <;> decide

/-- Claim C3, as amended: for every tensor satisfying the row-major shape
invariants whose extents are all positive with product at most `2^24` (the
exact regime of the `float` stride loop, which the freshly built sub-tensor
runs), and every in-range prefix/suffix split of a full multi-index,
`get<U>(prefix)` returns a tensor whose extents are the trailing
`Order - U` extents, whose size is their product, and whose scalar at the
remaining suffix is the scalar of the original at `prefix ++ suffix`. -/
theorem C3_subtensor_law (t : Tensor Int) (pre suf : List Nat)
    (hst : t.m_strides = trailingStrides t.m_extents)
    (hsz : t.m_size = t.m_extents.prod)
    (hdl : t.m_data.length = t.m_size)
    (hpos : ∀ x ∈ t.m_extents, 0 < x)
    (hsmall : t.m_extents.prod ≤ F24)
    (hU : pre.length < t.m_extents.length)
    (hlen : pre.length + suf.length = t.m_extents.length)
    (hpre : ∀ j, j < pre.length → pre.getD j 0 < t.m_extents.getD j 0)
    (hsuf : ∀ j, j < suf.length →
      suf.getD j 0 < (t.m_extents.drop pre.length).getD j 0) :
    ∃ sub : Tensor Int, t.getSub pre = .ok sub ∧
      sub.m_extents = t.m_extents.drop pre.length ∧
      sub.m_size = (t.m_extents.drop pre.length).prod ∧
      sub.get suf = t.get (pre ++ suf) := by
  have hsubpos : ∀ x ∈ t.m_extents.drop pre.length, 0 < x :=
    fun x hx => hpos x (List.mem_of_mem_drop hx)
  have htake : 0 < (t.m_extents.take pre.length).prod :=
    List.prod_pos fun x hx => hpos x (List.mem_of_mem_take hx)
  have hsplitprod := List.prod_take_mul_prod_drop t.m_extents pre.length
  have hsubsmall : (t.m_extents.drop pre.length).prod ≤ F24 := by
    have h1 : (t.m_extents.drop pre.length).prod ≤
        (t.m_extents.take pre.length).prod *
          (t.m_extents.drop pre.length).prod :=
      Nat.le_mul_of_pos_left _ htake
    omega
  have hctor := extentsCtor_exact (t.m_extents.drop pre.length)
    hsubpos hsubsmall
  have hblock : (blockSizeInt (t.m_extents.drop pre.length)).toNat =
      (t.m_extents.drop pre.length).prod := by
    rw [blockSizeInt_exact _ hsubpos hsubsmall, Int.toNat_natCast]
  have hfull : ∀ j, j < (pre ++ suf).length →
      (pre ++ suf).getD j 0 < t.m_extents.getD j 0 := by
    intro j hj
    rw [List.length_append] at hj
    by_cases hjp : j < pre.length
    · rw [List.getD_append _ _ _ _ hjp]
      exact hpre j hjp
    · rw [List.getD_append_right _ _ _ _ (by omega)]
      have hs := hsuf (j - pre.length) (by omega)
      rw [getD_drop _ _ _ (by omega)] at hs
      have : pre.length + (j - pre.length) = j := by omega
      rw [this] at hs
      exact hs
  have hdfull := dot_lt t.m_extents (pre ++ suf)
    (by rw [List.length_append]; omega) hfull
  have hsplit := dot_append pre t.m_extents suf (by omega)
  have hdsuf := dot_lt (t.m_extents.drop pre.length) suf
    (by rw [List.length_drop]; omega) hsuf
  have hprodU : t.m_extents.prod < U64 := by
    have : F24 < U64 := by decide
    omega
  have hsubU : (t.m_extents.drop pre.length).prod < U64 := by
    have : F24 < U64 := by decide
    omega
  have hflat : flatOffset t.m_strides pre =
      dot (trailingStrides t.m_extents) pre := by
    rw [hst]
    exact flatOffset_eq_dot _ _ (by omega)
  obtain ⟨r, hr, he2, hs2, hst2, hl2, hget⟩ :=
    copyLoop_spec t.m_data (dot (trailingStrides t.m_extents) pre)
      ((t.m_extents.drop pre.length).prod) 0
      ⟨List.replicate (t.m_extents.drop pre.length).prod 0,
        t.m_extents.drop pre.length,
        (t.m_extents.drop pre.length).prod,
        trailingStrides (t.m_extents.drop pre.length)⟩
      (by dsimp only; omega) (by dsimp only; omega)
      (by dsimp only; rw [List.length_replicate])
  rw [Nat.add_zero] at hr
  refine ⟨r, ?_, by rw [he2], by rw [hs2], ?_⟩
  · unfold Tensor.getSub
    simp only [hctor, okBind, hblock, hflat]
    exact hr
  · unfold Tensor.get
    rw [hst2]
    dsimp only
    rw [flatOffset_eq_dot _ _ (by omega)]
    rw [hget _, if_pos ⟨Nat.zero_le _, by omega⟩]
    rw [hst, flatOffset_eq_dot _ _ (by omega), hsplit]

/-- Witness for `C3_subtensor_law`: the spec scenario — the rank-2 tensor of
extents `{3, 2}` filled `0..5`; `get<1>({1})` is the rank-1 tensor `{2, 3}`
of size `2`, and indexing it at `{0}` returns `get<2>({1, 0}) = 2`. -/
theorem C3_subtensor_law_witness :
    ∃ sub : Tensor Int,
      Tensor.getSub (⟨[0, 1, 2, 3, 4, 5], [3, 2], 6, [2, 1]⟩ : Tensor Int)
          [1] = .ok sub ∧
      sub.m_extents = ([3, 2] : List Nat).drop 1 ∧
      sub.m_size = (([3, 2] : List Nat).drop 1).prod ∧
      sub.get [0] =
        Tensor.get (⟨[0, 1, 2, 3, 4, 5], [3, 2], 6, [2, 1]⟩ : Tensor Int)
          ([1] ++ [0]) :=
  C3_subtensor_law ⟨[0, 1, 2, 3, 4, 5], [3, 2], 6, [2, 1]⟩ [1] [0]
    (by decide) (by decide) (by decide) (by decide) (by decide) (by decide)
    (by decide) (by decide) (by decide)

end CoreTensor
